import Mathlib

/-!
Verification of the gozip repository (gozip.go): a bulk ZIP extractor with a
directory walker producing tasks, a pool of workers extracting archives, and
error channels.  The Go code is shallowly embedded below: file-system effects
are modelled by an explicit state (`FS`, `XState`) and the outcomes of OS /
library calls (`zip.OpenReader`, `os.MkdirAll`, `os.OpenFile`, `f.Open()`,
`io.Copy`, `os.Stat`) are supplied by an environment record, so every
definition is executable.
-/

namespace Gozip

/-! ## String primitives (strings.HasSuffix / strings.TrimSuffix) -/

/-- Embedding of Go `strings.HasSuffix s suffix`. -/
def strHasSuffix (s suffix : String) : Bool :=
  decide (suffix.data <:+ s.data)

/-- Embedding of Go `strings.TrimSuffix s suffix`:
`s` without the trailing `suffix` when present, otherwise `s` unchanged. -/
def trimSuffix (s suffix : String) : String :=
  if strHasSuffix s suffix then
    String.mk (s.data.take (s.data.length - suffix.data.length))
  else s

theorem trimSuffix_append_of_hasSuffix (s suffix : String)
    (h : strHasSuffix s suffix = true) :
    trimSuffix s suffix ++ suffix = s := by
  have h' : suffix.data <:+ s.data := by
    have hh := h
    unfold strHasSuffix at hh
    exact of_decide_eq_true hh
  obtain ⟨t, ht⟩ := h'
  have hlen : s.data.length - suffix.data.length = t.length := by
    rw [← ht]; simp
  have htake : s.data.take t.length = t := by
    rw [← ht]; exact List.take_left t suffix.data
  show (if strHasSuffix s suffix = true then
          String.mk (s.data.take (s.data.length - suffix.data.length))
        else s) ++ suffix = s
  rw [if_pos h, hlen, htake]
  show String.mk (t ++ suffix.data) = s
  rw [ht]

/-! ## Path primitives (path/filepath Clean, Join, Dir) -/

/-- Split a character list on `'/'` (the behavior of `strings.Split s "/"`
restricted to the separator used by `filepath` on Unix). -/
def splitOnSlashAux : List Char → List Char → List String
  | [], acc => [String.mk acc.reverse]
  | c :: cs, acc =>
    if c = '/' then String.mk acc.reverse :: splitOnSlashAux cs []
    else splitOnSlashAux cs (c :: acc)

def splitSlash (s : String) : List String :=
  splitOnSlashAux s.data []

def isRooted (s : String) : Bool :=
  match s.data with
  | '/' :: _ => true
  | _ => false

/-- Join path components with `'/'`. -/
def joinComps : List String → String
  | [] => ""
  | [c] => c
  | c :: cs => c ++ "/" ++ joinComps cs

/-- The component loop of Go `filepath.Clean` (Unix): process `".."` against
an output stack; at the root a leading `".."` is dropped, in a relative path
it is kept. `acc` holds the output components in reverse. -/
def cleanAux (rooted : Bool) : List String → List String → List String
  | acc, [] => acc.reverse
  | acc, c :: cs =>
    if c = ".." then
      match acc with
      | [] => if rooted then cleanAux rooted [] cs else cleanAux rooted [".."] cs
      | top :: rest =>
        if top = ".." then cleanAux rooted (c :: acc) cs
        else cleanAux rooted rest cs
    else cleanAux rooted (c :: acc) cs

def nonTrivialComp (c : String) : Bool :=
  if c = "" then false else if c = "." then false else true

def cleanComps (s : String) : List String :=
  cleanAux (isRooted s) [] ((splitSlash s).filter nonTrivialComp)

def renderPath (rooted : Bool) (comps : List String) : String :=
  if rooted then "/" ++ joinComps comps
  else if comps = [] then "." else joinComps comps

/-- Embedding of Go `filepath.Clean` (Unix paths, no volume names). -/
def clean (s : String) : String :=
  renderPath (isRooted s) (cleanComps s)

/-- Embedding of Go `filepath.Join` on two elements: non-empty elements are
joined with `"/"` and the result cleaned; all-empty input yields `""`. -/
def joinPath (a b : String) : String :=
  if a = "" then (if b = "" then "" else clean b)
  else if b = "" then clean a
  else clean (a ++ "/" ++ b)

def lastSlashIdxAux : List Char → Nat → Option Nat → Option Nat
  | [], _, best => best
  | c :: cs, i, best =>
    lastSlashIdxAux cs (i + 1) (if c = '/' then some i else best)

/-- Embedding of Go `filepath.Dir`: everything up to (and including) the final
separator, cleaned; `"."` when there is no separator. -/
def dirPath (p : String) : String :=
  clean (String.mk (p.data.take
    (match lastSlashIdxAux p.data 0 none with
     | none => 0
     | some i => i + 1)))

/-- All ancestor directories created by `os.MkdirAll p` (each prefix of the
cleaned path, the full cleaned path last). -/
def pathPrefixes (p : String) : List String :=
  let rooted := isRooted p
  let comps := cleanAux rooted [] ((splitSlash p).filter nonTrivialComp)
  ((List.range comps.length).map (fun k => renderPath rooted (comps.take (k + 1))))
    ++ [clean p]

theorem clean_mem_pathPrefixes (p : String) : clean p ∈ pathPrefixes p := by
  unfold pathPrefixes
  exact List.mem_append_right _ (List.mem_singleton_self _)

example : clean "/a/b/x/../../c/evil.txt" = "/a/c/evil.txt" := by decide
example : joinPath "/tmp/dest" "../evil.txt" = "/tmp/evil.txt" := by decide
example : dirPath "/a/c/evil.txt" = "/a/c" := by decide
example : dirPath "a.txt" = "." := by decide
example : trimSuffix "/r/a.zip" ".zip" = "/r/a" := by decide
example : pathPrefixes "/a/c" = ["/a", "/a/c", "/a/c"] := by decide

/-! ## Data model: errors, archives, the file system, extraction state -/

/-- Errors returned by the OS / zip library. `errFormat` is `zip.ErrFormat`;
`io msg` stands for any other error value. -/
inductive GoError where
  | errFormat
  | io (msg : String)
  deriving DecidableEq, Repr

/-- One entry of an opened archive: its stored name, whether
`f.FileInfo().IsDir()` holds, and its stored permission bits (`f.Mode()`). -/
structure ZipEntry where
  name : String
  isDir : Bool
  mode : Nat
  deriving DecidableEq, Repr

/-- Result of `zip.OpenReader`. -/
inductive OpenResult where
  | ok (files : List ZipEntry)
  | err (e : GoError)
  deriving DecidableEq, Repr

/-- The file system: the set of directories that exist and the written files
(newest binding first; `lookupFile` reads the newest). -/
structure FS where
  dirs : List String
  files : List (String × String)
  deriving DecidableEq, Repr

def lookupFile (fs : FS) (p : String) : Option String :=
  match fs.files.find? (fun kv => kv.1 = p) with
  | some kv => some kv.2
  | none => none

/-- `os.MkdirAll p`: creates `p` and every needed parent. -/
def mkdirAllFS (fs : FS) (p : String) : FS :=
  { fs with dirs := pathPrefixes p ++ fs.dirs }

/-- A write to path `p` (creation/truncation by `os.OpenFile` with
`O_CREATE|O_TRUNC`, or the bytes put there by `io.Copy`). -/
def writeFile (fs : FS) (p s : String) : FS :=
  { fs with files := (p, s) :: fs.files }

/-- Events recorded while extracting, used to state ordering properties.
`openOut p dirsAt` records that the output file at `p` was successfully
opened while the directories in `dirsAt` existed. -/
inductive Ev where
  | mkdirAll (p : String) (ok : Bool)
  | openOut (p : String) (dirsAt : List String)
  | copied (n : String) (p : String) (ok : Bool)
  deriving DecidableEq, Repr

/-- Extraction state: the file system, the currently open output-file handles
and archive-entry read streams (by path / entry name), and the event trace. -/
structure XState where
  fs : FS
  openOut : List String
  openRead : List String
  events : List Ev
  deriving DecidableEq, Repr

/-- Outcomes of the OS and zip-library calls made by `extractZip`, one oracle
per call site (`none` = success).  `content n` is the byte content delivered
by a successful `io.Copy` of entry `n`. -/
structure ExtractEnv where
  openResult : String → OpenResult
  mkdirErr : String → Option GoError
  openFileErr : String → Option GoError
  entryOpenErr : String → Option GoError
  copyErr : String → Option GoError
  content : String → String

/-! ## extractZip (gozip.go lines 15-62) -/

/-- The output path of entry `f`: `filepath.Join(destDir, f.Name)`
(gozip.go line 29).  No sanitization is applied to the stored name. -/
def outPath (destDir : String) (f : ZipEntry) : String :=
  joinPath destDir f.name

/-- The body of the `for _, f := range r.File` loop (gozip.go lines 28-60)
for one entry. -/
def procEntry (env : ExtractEnv) (destDir : String) (st : XState) (f : ZipEntry) :
    XState × Option GoError :=
  let fpath := outPath destDir f
  if f.isDir then
    -- os.MkdirAll(fpath, os.ModePerm); continue  (result discarded, line 32)
    let ok := (env.mkdirErr fpath).isNone
    ({ st with fs := if ok then mkdirAllFS st.fs fpath else st.fs,
               events := st.events ++ [Ev.mkdirAll fpath ok] }, none)
  else
    -- if err := os.MkdirAll(filepath.Dir(fpath), os.ModePerm); err != nil (line 36)
    let pdir := dirPath fpath
    match env.mkdirErr pdir with
    | some e =>
      ({ st with events := st.events ++ [Ev.mkdirAll pdir false] }, some e)
    | none =>
      let st1 := { st with fs := mkdirAllFS st.fs pdir,
                           events := st.events ++ [Ev.mkdirAll pdir true] }
      -- outFile, err := os.OpenFile(fpath, O_WRONLY|O_CREATE|O_TRUNC, f.Mode()) (line 40)
      match env.openFileErr fpath with
      | some e => (st1, some e)
      | none =>
        let st2 := { st1 with fs := writeFile st1.fs fpath "",
                              openOut := fpath :: st1.openOut,
                              events := st1.events ++ [Ev.openOut fpath st1.fs.dirs] }
        -- rc, err := f.Open() (line 45)
        match env.entryOpenErr f.name with
        | some e =>
          -- outFile.Close(); return err (lines 47-48)
          ({ st2 with openOut := st2.openOut.erase fpath }, some e)
        | none =>
          let st3 := { st2 with openRead := f.name :: st2.openRead }
          -- _, err = io.Copy(outFile, rc) (line 51)
          let copyRes := env.copyErr f.name
          let stW :=
            match copyRes with
            | none => { st3 with fs := writeFile st3.fs fpath (env.content f.name),
                                 events := st3.events ++ [Ev.copied f.name fpath true] }
            | some _ => { st3 with events := st3.events ++ [Ev.copied f.name fpath false] }
          -- outFile.Close(); rc.Close()  (lines 54-55, unconditional)
          let st4 := { stW with openOut := stW.openOut.erase fpath,
                                openRead := stW.openRead.erase f.name }
          match copyRes with
          | some e => (st4, some e)
          | none => (st4, none)

/-- The whole entry loop: stops at the first entry returning an error
(`return err` aborts the loop). -/
def runEntries (env : ExtractEnv) (destDir : String) :
    XState → List ZipEntry → XState × Option GoError
  | st, [] => (st, none)
  | st, f :: fs =>
    match procEntry env destDir st f with
    | (st', none) => runEntries env destDir st' fs
    | (st', some e) => (st', some e)

/-- The console notice printed for a malformed archive (gozip.go line 19). -/
def notValidMsg (zipPath : String) : String :=
  "Error: " ++ zipPath ++ " is not a valid zip file and will be skipped."

/-- Embedding of `extractZip` (gozip.go lines 15-62).  Returns the final
state, the returned `error` (`none` = `nil`) and the console notices printed.
`zip.ErrFormat` on open is swallowed (notice + `nil`); other open errors are
returned.  The initial `os.MkdirAll(destDir, 0755)` discards its error
(line 26). -/
def extractZip (env : ExtractEnv) (zipPath destDir : String) (st : XState) :
    XState × Option GoError × List String :=
  match env.openResult zipPath with
  | .err e =>
    if e = .errFormat then (st, none, [notValidMsg zipPath])
    else (st, some e, [])
  | .ok files =>
    let ok := (env.mkdirErr destDir).isNone
    let st1 := { st with fs := if ok then mkdirAllFS st.fs destDir else st.fs,
                         events := st.events ++ [Ev.mkdirAll destDir ok] }
    let r := runEntries env destDir st1 files
    (r.1, r.2, [])

/-! ## worker (gozip.go lines 65-82) -/

/-- Result of `os.Stat(destDir)` as classified by the worker:
success, the not-exist error (`os.IsNotExist(err)`), or any other error. -/
inductive StatResult where
  | ok
  | errNotExist
  | errOther
  deriving DecidableEq, Repr

/-- `os.IsNotExist err` on the three cases (for a `nil` error it is false). -/
def isNotExist : StatResult → Bool
  | .errNotExist => true
  | _ => false

/-- How the worker disposed of one task. -/
inductive TaskOutcome where
  | skipped
  | extractedOk
  | fatal (e : GoError)
  deriving DecidableEq, Repr

/-- One worker's full execution: the final extraction state, the per-task log
(in processing order), the errors it sent on `errChan`, and the
`extractZip` invocations it made (path, destDir). -/
structure WorkerRun where
  st : XState
  log : List (String × TaskOutcome)
  errs : List GoError
  calls : List (String × String)
  deriving Repr

/-- Embedding of `worker` (gozip.go lines 65-82) run sequentially on the list
of tasks it receives from `pathsChan`.  For each path: the destination is
`strings.TrimSuffix(path, ".zip")`; extraction runs only when `os.Stat`
returns the not-exist error; on a fatal extraction error the worker sends it
to `errChan` and returns, leaving the remaining tasks unprocessed. -/
def runWorker (env : ExtractEnv) (stat : String → StatResult) (st : XState) :
    List String → WorkerRun
  | [] => ⟨st, [], [], []⟩
  | p :: rest =>
    let destDir := trimSuffix p ".zip"
    if isNotExist (stat destDir) then
      match extractZip env p destDir st with
      | (st', some e, _) => ⟨st', [(p, .fatal e)], [e], [(p, destDir)]⟩
      | (st', none, _) =>
        let r := runWorker env stat st' rest
        ⟨r.st, (p, .extractedOk) :: r.log, r.errs, (p, destDir) :: r.calls⟩
    else
      let r := runWorker env stat st rest
      ⟨r.st, (p, .skipped) :: r.log, r.errs, r.calls⟩

/-! ## Discovery walker (gozip.go lines 110-123) -/

/- A file-system tree as visited by `filepath.Walk`: regular files,
directories with ordered children, and entries whose stat fails (for which
the walk function receives a non-nil `err`). -/
mutual
inductive FSNode where
  | file (path : String)
  | bad (path : String) (e : GoError)
  | dir (path : String) (children : FSForest)
inductive FSForest where
  | nil
  | cons (n : FSNode) (ns : FSForest)
end

/- Embedding of the `filepath.Walk` callback of gozip.go lines 111-121:
on a stat error the error is sent to `errChan` and returned, which makes
`filepath.Walk` abort the whole traversal; a regular file whose path ends in
`".zip"` is sent to `pathsChan`; directories are only descended into.
Returns the enqueued paths in visit order and the aborting error. -/
mutual
def walkNode : FSNode → List String × Option GoError
  | .file p => (if strHasSuffix p ".zip" then [p] else [], none)
  | .bad _ e => ([], some e)
  | .dir _ cs => walkForest cs
def walkForest : FSForest → List String × Option GoError
  | .nil => ([], none)
  | .cons n ns =>
    match walkNode n with
    | (s, some e) => (s, some e)
    | (s, none) =>
      let r := walkForest ns
      (s ++ r.1, r.2)
end

/-- The producer goroutine (gozip.go lines 110-123): walk, then
`close(pathsChan)` unconditionally. -/
structure ProducerRun where
  enqueued : List String
  errSent : List GoError
  closedQueue : Bool
  deriving Repr

def produce (root : FSNode) : ProducerRun :=
  let r := walkNode root
  { enqueued := r.1,
    errSent := match r.2 with | some e => [e] | none => [],
    closedQueue := true }

/- The pre-order visit sequence of the tree, used to state what "entries not
yet visited" means. -/
inductive VisitItem where
  | file (path : String)
  | bad (path : String) (e : GoError)
  | dir (path : String)
  deriving DecidableEq, Repr

mutual
def preorderNode : FSNode → List VisitItem
  | .file p => [.file p]
  | .bad p e => [.bad p e]
  | .dir p cs => .dir p :: preorderForest cs
def preorderForest : FSForest → List VisitItem
  | .nil => []
  | .cons n ns => preorderNode n ++ preorderForest ns
end

def notBad : VisitItem → Bool
  | .bad _ _ => false
  | _ => true

/-- The zip-file paths among a visit sequence, in order. -/
def zipsOf (items : List VisitItem) : List String :=
  items.filterMap (fun it =>
    match it with
    | .file p => if strHasSuffix p ".zip" then some p else none
    | _ => none)

/-- The error of the first stat-failed entry of a visit sequence, if any. -/
def firstBadErr : List VisitItem → Option GoError
  | [] => none
  | .bad _ e :: _ => some e
  | .file _ :: rest => firstBadErr rest
  | .dir _ :: rest => firstBadErr rest

/-! ## Concurrency model (gozip.go lines 96-129)

The producer (the `filepath.Walk` goroutine), the `n` workers and the
bounded `pathsChan` of capacity `n` (`make(chan string, numWorkers)`,
line 98) as an interleaving transition system.  A worker is `idle` at the
channel receive of its `for path := range pathsChan` loop, `processing`
while handling one task, `doneDrain` after exiting the loop on a closed
empty channel, and `doneFatal` after `errChan <- err; return`. -/

inductive WState where
  | idle
  | processing
  | doneDrain
  | doneFatal
  deriving DecidableEq, Repr

/-- Global state: the paths the producer still has to send (head = the send
it is currently blocked on, when the buffer is full), whether `pathsChan`
has been closed, the buffered contents of `pathsChan`, and each worker's
control state. -/
structure Sys (n : Nat) where
  pending : List String
  closed : Bool
  queue : List String
  workers : Fin n → WState

/-- Steps of the producer goroutine: a buffered channel send (enabled while
the buffer holds fewer than `n` items), and `close(pathsChan)` once the walk
is finished. -/
inductive PStep {n : Nat} : Sys n → Sys n → Prop
  | send (s t : Sys n) (p : String) (rest : List String) :
      s.pending = p :: rest →
      s.queue.length < n →
      t = { s with pending := rest, queue := s.queue ++ [p] } →
      PStep s t
  | close (s t : Sys n) :
      s.pending = [] →
      s.closed = false →
      t = { s with closed := true } →
      PStep s t

/-- Steps of worker `i`: receive a task from the buffer, finish processing a
task successfully, hit a fatal extraction error (`errChan <- err; return`),
or exit the range loop on a closed empty channel. -/
inductive WStep {n : Nat} (i : Fin n) : Sys n → Sys n → Prop
  | recv (s t : Sys n) (p : String) (qs : List String) :
      s.workers i = .idle →
      s.queue = p :: qs →
      t = { s with queue := qs, workers := Function.update s.workers i .processing } →
      WStep i s t
  | procOk (s t : Sys n) :
      s.workers i = .processing →
      t = { s with workers := Function.update s.workers i .idle } →
      WStep i s t
  | procFatal (s t : Sys n) :
      s.workers i = .processing →
      t = { s with workers := Function.update s.workers i .doneFatal } →
      WStep i s t
  | drain (s t : Sys n) :
      s.workers i = .idle →
      s.queue = [] →
      s.closed = true →
      t = { s with workers := Function.update s.workers i .doneDrain } →
      WStep i s t

def SysStep {n : Nat} (s t : Sys n) : Prop :=
  PStep s t ∨ ∃ i, WStep i s t

/-- Interleaved runs with stuttering. -/
def IsRun {n : Nat} (tr : Nat → Sys n) : Prop :=
  ∀ j, tr (j + 1) = tr j ∨ SysStep (tr j) (tr (j + 1))

def PEnabled {n : Nat} (s : Sys n) : Prop := ∃ t, PStep s t

def WEnabled {n : Nat} (i : Fin n) (s : Sys n) : Prop := ∃ t, WStep i s t

/-- Weak fairness of the producer: it cannot stay enabled forever without
taking a step. -/
def FairP {n : Nat} (tr : Nat → Sys n) : Prop :=
  ∀ i, (∀ j, i ≤ j → PEnabled (tr j)) → ∃ k, i ≤ k ∧ PStep (tr k) (tr (k + 1))

/-- Weak fairness of worker `w`. -/
def FairW {n : Nat} (w : Fin n) (tr : Nat → Sys n) : Prop :=
  ∀ i, (∀ j, i ≤ j → WEnabled w (tr j)) → ∃ k, i ≤ k ∧ WStep w (tr k) (tr (k + 1))

/-- The initial state of `main`: channel open and empty, every worker at its
receive. -/
def SysInit {n : Nat} (s : Sys n) : Prop :=
  s.closed = false ∧ s.queue = [] ∧ ∀ i, s.workers i = WState.idle

/-! ## Concrete data for witnesses -/

/-- An environment in which every OS call succeeds and archives are empty. -/
def envOk : ExtractEnv :=
  { openResult := fun _ => .ok []
    mkdirErr := fun _ => none
    openFileErr := fun _ => none
    entryOpenErr := fun _ => none
    copyErr := fun _ => none
    content := fun _ => "" }

def initX : XState :=
  { fs := { dirs := [], files := [] }, openOut := [], openRead := [], events := [] }

def statAllOk : String → StatResult := fun _ => .ok

def statAllOther : String → StatResult := fun _ => .errOther

/-! ## Claims -/

/-- Claim C1: the worker derives the destination directory from a task path
by `strings.TrimSuffix(path, ".zip")` (so appending `".zip"` to it recovers
the path), and when the destination is present before extraction starts
(`os.Stat` succeeds) the task is skipped outright: the log records a skip,
no `extractZip` call is made for it, the extraction state is untouched by
this task and no error is sent. -/
theorem c1_skip_when_dest_present (env : ExtractEnv) (stat : String → StatResult)
    (st : XState) (p : String) (rest : List String)
    (hzip : strHasSuffix p ".zip" = true)
    (hok : stat (trimSuffix p ".zip") = .ok) :
    trimSuffix p ".zip" ++ ".zip" = p ∧
    runWorker env stat st (p :: rest) =
      ⟨(runWorker env stat st rest).st,
       (p, TaskOutcome.skipped) :: (runWorker env stat st rest).log,
       (runWorker env stat st rest).errs,
       (runWorker env stat st rest).calls⟩ := by
  refine ⟨trimSuffix_append_of_hasSuffix p ".zip" hzip, ?_⟩
  simp [runWorker, hok, isNotExist]

theorem c1_witness :
    strHasSuffix "/r/a.zip" ".zip" = true ∧
    (trimSuffix "/r/a.zip" ".zip" ++ ".zip" = "/r/a.zip" ∧
      runWorker envOk statAllOk initX ["/r/a.zip"] =
        ⟨(runWorker envOk statAllOk initX []).st,
         ("/r/a.zip", TaskOutcome.skipped) :: (runWorker envOk statAllOk initX []).log,
         (runWorker envOk statAllOk initX []).errs,
         (runWorker envOk statAllOk initX []).calls⟩) :=
  ⟨by decide,
   c1_skip_when_dest_present envOk statAllOk initX "/r/a.zip" [] (by decide) rfl⟩

/-- Claim C9: when `os.Stat(destDir)` fails with an error that is not
not-exist (e.g. permission denied), `os.IsNotExist(err)` is false, so the
worker takes the same skip branch as for an existing destination: no
extraction, no error sent, state untouched. -/
theorem c9_skip_on_other_stat_error (env : ExtractEnv) (stat : String → StatResult)
    (st : XState) (p : String) (rest : List String)
    (hother : stat (trimSuffix p ".zip") = .errOther) :
    runWorker env stat st (p :: rest) =
      ⟨(runWorker env stat st rest).st,
       (p, TaskOutcome.skipped) :: (runWorker env stat st rest).log,
       (runWorker env stat st rest).errs,
       (runWorker env stat st rest).calls⟩ := by
  simp [runWorker, hother, isNotExist]

theorem c9_witness :
    runWorker envOk statAllOther initX ["/r/a.zip"] =
      ⟨(runWorker envOk statAllOther initX []).st,
       ("/r/a.zip", TaskOutcome.skipped) :: (runWorker envOk statAllOther initX []).log,
       (runWorker envOk statAllOther initX []).errs,
       (runWorker envOk statAllOther initX []).calls⟩ :=
  c9_skip_on_other_stat_error envOk statAllOther initX "/r/a.zip" [] rfl

/-- Claim C2: when `zip.OpenReader` fails with `zip.ErrFormat` (the archive
is not well formed), `extractZip` prints a notice and returns `nil`
(success), leaving the state untouched; an open failure with any other error
is returned as the error. -/
theorem c2_format_error_swallowed (env : ExtractEnv) (zipPath destDir : String)
    (st : XState) :
    (env.openResult zipPath = .err .errFormat →
      extractZip env zipPath destDir st = (st, none, [notValidMsg zipPath])) ∧
    (∀ e, env.openResult zipPath = .err e → e ≠ .errFormat →
      extractZip env zipPath destDir st = (st, some e, [])) := by
  constructor
  · intro h
    simp [extractZip, h]
  · intro e h hne
    simp [extractZip, h, hne]

def envFormatErr : ExtractEnv :=
  { envOk with openResult := fun _ => .err .errFormat }

theorem c2_witness :
    extractZip envFormatErr "b.zip" "b" initX =
      (initX, none, [notValidMsg "b.zip"]) :=
  (c2_format_error_swallowed envFormatErr "b.zip" "b" initX).1 rfl

/-- Claim C10: the output path of an entry is the plain
`filepath.Join(destDir, f.Name)` with no sanitization; the concrete entry
name `"../evil.txt"` (which contains a `".."` component) yields the output
path `"/tmp/evil.txt"`, which lies outside the destination directory
`"/tmp/dest"` (not the destination itself and not under it), and extraction
writes the entry's bytes to that outside path. -/
theorem c10_path_traversal :
    outPath "/tmp/dest" ⟨"../evil.txt", false, 0⟩ =
      joinPath "/tmp/dest" "../evil.txt" ∧
    ".." ∈ splitSlash "../evil.txt" ∧
    outPath "/tmp/dest" ⟨"../evil.txt", false, 0⟩ = "/tmp/evil.txt" ∧
    ¬ ("/tmp/dest/").data <+: ("/tmp/evil.txt").data ∧
    ("/tmp/evil.txt" : String) ≠ "/tmp/dest" ∧
    lookupFile ((procEntry
        { envOk with content := fun _ => "payload" }
        "/tmp/dest" initX ⟨"../evil.txt", false, 0⟩).1).fs "/tmp/evil.txt"
      = some "payload" := by
  refine ⟨rfl, by decide, by decide, by decide, by decide, by decide⟩

/-- Claim C3: a worker processes the received tasks strictly in order (its
log is a prefix of the task list); when it sends no error it drains every
task; and when it does send an error it sends exactly one, the last task in
its log is the one with the fatal outcome, and nothing beyond that prefix is
ever received or processed. -/
theorem c3_worker_terminates_on_fatal (env : ExtractEnv)
    (stat : String → StatResult) (st : XState) (tasks : List String) :
    (runWorker env stat st tasks).log.map Prod.fst
        = tasks.take (runWorker env stat st tasks).log.length ∧
    ((runWorker env stat st tasks).errs = []
        → (runWorker env stat st tasks).log.length = tasks.length) ∧
    ((runWorker env stat st tasks).errs = []
        ∨ ∃ e p pre, (runWorker env stat st tasks).errs = [e]
            ∧ (runWorker env stat st tasks).log
                = pre ++ [(p, TaskOutcome.fatal e)]) := by
  induction tasks generalizing st with
  | nil => simp [runWorker]
  | cons p rest ih =>
    by_cases hs : isNotExist (stat (trimSuffix p ".zip")) = true
    · rcases hext : extractZip env p (trimSuffix p ".zip") st with ⟨st', e?, ns⟩
      cases e? with
      | some e =>
        refine ⟨?_, ?_, ?_⟩
        · simp [runWorker, hs, hext]
        · intro he
          simp [runWorker, hs, hext] at he
        · refine Or.inr ⟨e, p, [], ?_, ?_⟩ <;> simp [runWorker, hs, hext]
      | none =>
        obtain ⟨ih1, ih2, ih3⟩ := ih st'
        refine ⟨?_, ?_, ?_⟩
        · simp [runWorker, hs, hext, ih1]
        · intro he
          simp [runWorker, hs, hext] at he ⊢
          exact ih2 he
        · simp only [runWorker, hs, if_true, hext]
          rcases ih3 with h | ⟨e, q, pre, he, hl⟩
          · exact Or.inl h
          · exact Or.inr ⟨e, q, (p, TaskOutcome.extractedOk) :: pre, he, by simp [hl]⟩
    · obtain ⟨ih1, ih2, ih3⟩ := ih st
      refine ⟨?_, ?_, ?_⟩
      · simp [runWorker, hs, ih1]
      · intro he
        simp [runWorker, hs] at he ⊢
        exact ih2 he
      · simp only [runWorker, hs, if_false]
        rcases ih3 with h | ⟨e, q, pre, he, hl⟩
        · exact Or.inl h
        · exact Or.inr ⟨e, q, (p, TaskOutcome.skipped) :: pre, he, by simp [hl]⟩

def envCopyFail : ExtractEnv :=
  { envOk with
      openResult := fun _ => .ok [⟨"f.txt", false, 420⟩]
      copyErr := fun _ => some (.io "disk full") }

def statAllNotExist : String → StatResult := fun _ => .errNotExist

theorem c3_witness :
    (runWorker envCopyFail statAllNotExist initX ["/r/a.zip", "/r/b.zip"]).log.map
        Prod.fst
      = ["/r/a.zip", "/r/b.zip"].take
          (runWorker envCopyFail statAllNotExist initX
            ["/r/a.zip", "/r/b.zip"]).log.length ∧
    ((runWorker envCopyFail statAllNotExist initX ["/r/a.zip", "/r/b.zip"]).errs = []
      ∨ ∃ e p pre,
          (runWorker envCopyFail statAllNotExist initX
            ["/r/a.zip", "/r/b.zip"]).errs = [e]
          ∧ (runWorker envCopyFail statAllNotExist initX
              ["/r/a.zip", "/r/b.zip"]).log = pre ++ [(p, TaskOutcome.fatal e)]) :=
  ⟨(c3_worker_terminates_on_fatal envCopyFail statAllNotExist initX
      ["/r/a.zip", "/r/b.zip"]).1,
   (c3_worker_terminates_on_fatal envCopyFail statAllNotExist initX
      ["/r/a.zip", "/r/b.zip"]).2.2⟩

theorem runEntries_append (env : ExtractEnv) (dest : String) (st : XState)
    (a b : List ZipEntry) :
    runEntries env dest st (a ++ b) =
      match runEntries env dest st a with
      | (s, none) => runEntries env dest s b
      | (s, some e) => (s, some e) := by
  induction a generalizing st with
  | nil => simp [runEntries]
  | cons f fs ih =>
    rcases h : procEntry env dest st f with ⟨st', e?⟩
    cases e? with
    | none => simp [runEntries, h, ih]
    | some e => simp [runEntries, h]

theorem lookupFile_writeFile_ne (fs : FS) (p q v : String) (h : q ≠ p) :
    lookupFile { fs with files := (p, v) :: fs.files } q = lookupFile fs q := by
  simp only [lookupFile, List.find?]
  have : (decide (p = q)) = false := by
    simp only [decide_eq_false_iff_not]
    exact fun hpq => h hpq.symm
  rw [this]

/-- Claim C5: a failing `io.Copy` on some entry makes `extractZip` return
that error immediately from the entry loop: no later entry of the archive is
processed (the run on `pre ++ f :: post` ignores `post` entirely), the state
at the moment of the failure is returned as is (no rollback), and every file
at a path other than the failing entry's own output path — in particular
everything written for the earlier entries — is unchanged by the failing
entry. -/
theorem c5_copy_failure_aborts (env : ExtractEnv) (dest : String)
    (st stP : XState) (pre post : List ZipEntry) (f : ZipEntry) (e : GoError)
    (hpre : runEntries env dest st pre = (stP, none))
    (hdir : f.isDir = false)
    (hmk : env.mkdirErr (dirPath (outPath dest f)) = none)
    (hof : env.openFileErr (outPath dest f) = none)
    (heo : env.entryOpenErr f.name = none)
    (hcp : env.copyErr f.name = some e) :
    ∃ stF, procEntry env dest stP f = (stF, some e)
      ∧ runEntries env dest st (pre ++ f :: post) = (stF, some e)
      ∧ (∀ q, q ≠ outPath dest f → lookupFile stF.fs q = lookupFile stP.fs q) := by
  have hproc : procEntry env dest stP f =
      ({ fs := { dirs := pathPrefixes (dirPath (outPath dest f)) ++ stP.fs.dirs,
                 files := (outPath dest f, "") :: stP.fs.files },
         openOut := stP.openOut,
         openRead := stP.openRead,
         events := (stP.events
            ++ [Ev.mkdirAll (dirPath (outPath dest f)) true])
            ++ [Ev.openOut (outPath dest f)
                  (pathPrefixes (dirPath (outPath dest f)) ++ stP.fs.dirs)]
            ++ [Ev.copied f.name (outPath dest f) false] }, some e) := by
    simp [procEntry, hdir, hmk, hof, heo, hcp, mkdirAllFS, writeFile]
  refine ⟨_, hproc, ?_, ?_⟩
  · rw [runEntries_append, hpre]
    simp [runEntries, hproc]
  · intro q hq
    exact lookupFile_writeFile_ne
      { dirs := pathPrefixes (dirPath (outPath dest f)) ++ stP.fs.dirs,
        files := stP.fs.files } (outPath dest f) q "" hq

def envC5 : ExtractEnv :=
  { envOk with
      content := fun n => if n = "a.txt" then "A" else ""
      copyErr := fun n => if n = "bad.txt" then some (.io "write error") else none }

theorem c5_witness :
    runEntries envC5 "/d" initX [⟨"a.txt", false, 420⟩] =
        ((runEntries envC5 "/d" initX [⟨"a.txt", false, 420⟩]).1, none) ∧
    ∃ stF, procEntry envC5 "/d"
          (runEntries envC5 "/d" initX [⟨"a.txt", false, 420⟩]).1
          ⟨"bad.txt", false, 420⟩ = (stF, some (.io "write error"))
      ∧ runEntries envC5 "/d" initX
          ([⟨"a.txt", false, 420⟩] ++ ⟨"bad.txt", false, 420⟩ ::
            [⟨"later.txt", false, 420⟩]) = (stF, some (.io "write error"))
      ∧ (∀ q, q ≠ outPath "/d" ⟨"bad.txt", false, 420⟩ →
          lookupFile stF.fs q
            = lookupFile (runEntries envC5 "/d" initX
                [⟨"a.txt", false, 420⟩]).1.fs q) :=
  ⟨by decide,
   c5_copy_failure_aborts envC5 "/d" initX _ [⟨"a.txt", false, 420⟩]
     [⟨"later.txt", false, 420⟩] ⟨"bad.txt", false, 420⟩ (.io "write error")
     (by decide) rfl (by decide) (by decide) (by decide) (by decide)⟩

theorem procEntry_handles_closed (env : ExtractEnv) (dest : String)
    (st : XState) (f : ZipEntry)
    (h1 : st.openOut = []) (h2 : st.openRead = []) :
    (procEntry env dest st f).1.openOut = []
      ∧ (procEntry env dest st f).1.openRead = [] := by
  by_cases hdir : f.isDir = true
  · simp [procEntry, hdir, h1, h2]
  · simp only [Bool.not_eq_true] at hdir
    cases hmk : env.mkdirErr (dirPath (outPath dest f)) with
    | some e => simp [procEntry, hdir, hmk, h1, h2]
    | none =>
      cases hof : env.openFileErr (outPath dest f) with
      | some e => simp [procEntry, hdir, hmk, hof, h1, h2]
      | none =>
        cases heo : env.entryOpenErr f.name with
        | some e => simp [procEntry, hdir, hmk, hof, heo, h1, h2]
        | none =>
          cases hcp : env.copyErr f.name with
          | some e => simp [procEntry, hdir, hmk, hof, heo, hcp, h1, h2]
          | none => simp [procEntry, hdir, hmk, hof, heo, hcp, h1, h2]

theorem runEntries_handles_closed (env : ExtractEnv) (dest : String)
    (entries : List ZipEntry) : ∀ st : XState,
    st.openOut = [] → st.openRead = [] →
    (runEntries env dest st entries).1.openOut = []
      ∧ (runEntries env dest st entries).1.openRead = [] := by
  induction entries with
  | nil => intro st h1 h2; simpa [runEntries] using ⟨h1, h2⟩
  | cons f fs ih =>
    intro st h1 h2
    obtain ⟨g1, g2⟩ := procEntry_handles_closed env dest st f h1 h2
    rcases h : procEntry env dest st f with ⟨st', e?⟩
    rw [h] at g1 g2
    cases e? with
    | none => simpa [runEntries, h] using ih st' g1 g2
    | some e => simpa [runEntries, h] using ⟨g1, g2⟩

/-- Claim C6: starting from a state with no open handles, every output file
and every archive-entry read stream that gets opened is closed again before
the next entry is processed and before `extractZip` returns, on the success
path and on every failure path (open-of-entry failure and copy failure
included): after each single entry step, after the whole entry loop, and
after `extractZip` itself, the set of open handles is empty. -/
theorem c6_all_handles_released (env : ExtractEnv) (zp dest : String)
    (st : XState) (f : ZipEntry) (entries : List ZipEntry)
    (h1 : st.openOut = []) (h2 : st.openRead = []) :
    ((procEntry env dest st f).1.openOut = []
      ∧ (procEntry env dest st f).1.openRead = []) ∧
    ((runEntries env dest st entries).1.openOut = []
      ∧ (runEntries env dest st entries).1.openRead = []) ∧
    ((extractZip env zp dest st).1.openOut = []
      ∧ (extractZip env zp dest st).1.openRead = []) := by
  refine ⟨procEntry_handles_closed env dest st f h1 h2,
          runEntries_handles_closed env dest entries st h1 h2, ?_⟩
  cases hor : env.openResult zp with
  | err e =>
    by_cases he : e = .errFormat
    · simp [extractZip, hor, he, h1, h2]
    · simp [extractZip, hor, he, h1, h2]
  | ok files =>
    have := runEntries_handles_closed env dest files
      { st with fs := if (env.mkdirErr dest).isNone
                      then mkdirAllFS st.fs dest else st.fs,
                events := st.events ++ [Ev.mkdirAll dest (env.mkdirErr dest).isNone] }
      h1 h2
    simpa [extractZip, hor] using this

def envC6 : ExtractEnv :=
  { envOk with
      openResult := fun _ => .ok [⟨"a.txt", false, 420⟩, ⟨"b.txt", false, 420⟩]
      entryOpenErr := fun n => if n = "b.txt" then some (.io "bad entry") else none }

theorem c6_witness :
    ((procEntry envC6 "/d" initX ⟨"a.txt", false, 420⟩).1.openOut = []
      ∧ (procEntry envC6 "/d" initX ⟨"a.txt", false, 420⟩).1.openRead = []) ∧
    ((runEntries envC6 "/d" initX
        [⟨"a.txt", false, 420⟩, ⟨"b.txt", false, 420⟩]).1.openOut = []
      ∧ (runEntries envC6 "/d" initX
          [⟨"a.txt", false, 420⟩, ⟨"b.txt", false, 420⟩]).1.openRead = []) ∧
    ((extractZip envC6 "/d.zip" "/d" initX).1.openOut = []
      ∧ (extractZip envC6 "/d.zip" "/d" initX).1.openRead = []) :=
  c6_all_handles_released envC6 "/d.zip" "/d" initX ⟨"a.txt", false, 420⟩
    [⟨"a.txt", false, 420⟩, ⟨"b.txt", false, 420⟩] rfl rfl

theorem firstBadErr_append (a b : List VisitItem) :
    firstBadErr (a ++ b) =
      match firstBadErr a with
      | some e => some e
      | none => firstBadErr b := by
  induction a with
  | nil => simp [firstBadErr]
  | cons x rest ih =>
    cases x with
    | file p => simpa [firstBadErr] using ih
    | dir p => simpa [firstBadErr] using ih
    | bad p e => simp [firstBadErr]

theorem notBad_of_firstBadErr_none (a : List VisitItem)
    (h : firstBadErr a = none) : ∀ x ∈ a, notBad x = true := by
  induction a with
  | nil => simp
  | cons x rest ih =>
    cases x with
    | file p =>
      simp only [firstBadErr] at h
      intro y hy
      rcases List.mem_cons.mp hy with hy | hy
      · simp [hy, notBad]
      · exact ih h y hy
    | dir p =>
      simp only [firstBadErr] at h
      intro y hy
      rcases List.mem_cons.mp hy with hy | hy
      · simp [hy, notBad]
      · exact ih h y hy
    | bad p e => simp [firstBadErr] at h

theorem takeWhile_append_all (p : VisitItem → Bool) (a b : List VisitItem)
    (h : ∀ x ∈ a, p x = true) :
    (a ++ b).takeWhile p = a ++ b.takeWhile p := by
  induction a with
  | nil => simp
  | cons x rest ih =>
    have hx : p x = true := h x (List.mem_cons_self x rest)
    simp only [List.cons_append, List.takeWhile_cons, hx, if_true]
    rw [ih (fun y hy => h y (List.mem_cons_of_mem x hy))]

theorem takeWhile_append_bad (a b : List VisitItem) (e : GoError)
    (h : firstBadErr a = some e) :
    (a ++ b).takeWhile notBad = a.takeWhile notBad := by
  induction a with
  | nil => simp [firstBadErr] at h
  | cons x rest ih =>
    cases x with
    | file q =>
      simp only [firstBadErr] at h
      simp only [List.cons_append, List.takeWhile_cons, notBad, if_true]
      rw [ih h]
    | dir q =>
      simp only [firstBadErr] at h
      simp only [List.cons_append, List.takeWhile_cons, notBad, if_true]
      rw [ih h]
    | bad q e' =>
      simp [List.takeWhile_cons, notBad]

mutual
theorem walkNode_spec (n : FSNode) :
    walkNode n = (zipsOf ((preorderNode n).takeWhile notBad),
                  firstBadErr (preorderNode n)) := by
  cases n with
  | file p =>
    by_cases hz : strHasSuffix p ".zip" = true
    · simp [walkNode, preorderNode, zipsOf, firstBadErr, notBad,
        List.takeWhile_cons, hz]
    · simp [walkNode, preorderNode, zipsOf, firstBadErr, notBad,
        List.takeWhile_cons, hz]
  | bad p e =>
    simp [walkNode, preorderNode, zipsOf, firstBadErr, notBad,
      List.takeWhile_cons]
  | dir p cs =>
    have h := walkForest_spec cs
    simp only [walkNode, preorderNode, List.takeWhile_cons, notBad, if_true,
      zipsOf, List.filterMap_cons, firstBadErr]
    simpa [zipsOf] using h
theorem walkForest_spec (ns : FSForest) :
    walkForest ns = (zipsOf ((preorderForest ns).takeWhile notBad),
                     firstBadErr (preorderForest ns)) := by
  cases ns with
  | nil => simp [walkForest, preorderForest, zipsOf, firstBadErr]
  | cons n ns' =>
    have h1 := walkNode_spec n
    have h2 := walkForest_spec ns'
    cases hb : firstBadErr (preorderNode n) with
    | some e =>
      rw [hb] at h1
      simp only [walkForest, h1, preorderForest]
      rw [takeWhile_append_bad _ _ e hb, firstBadErr_append, hb]
    | none =>
      rw [hb] at h1
      have hall := notBad_of_firstBadErr_none _ hb
      have htw : (preorderNode n).takeWhile notBad = preorderNode n :=
        List.takeWhile_eq_self_iff.mpr hall
      simp only [walkForest, h1, preorderForest]
      rw [takeWhile_append_all _ _ _ hall, firstBadErr_append, hb, h2]
      simp [zipsOf, htw]
end

/-- Claim C4: the producer goroutine walks the tree and, at the first entry
whose stat fails, sends exactly that error to `errChan` and aborts the rest
of the traversal: what it enqueued is exactly the zip files among the visit
sequence strictly before the first failing entry (nothing at or after the
error is discovered or enqueued), when no entry fails nothing is sent on
`errChan`, and in all cases `pathsChan` is closed afterwards. -/
theorem c4_traversal_abort (root : FSNode) :
    (produce root).closedQueue = true ∧
    (produce root).enqueued = zipsOf ((preorderNode root).takeWhile notBad) ∧
    (∀ e, firstBadErr (preorderNode root) = some e →
        (produce root).errSent = [e]) ∧
    (firstBadErr (preorderNode root) = none → (produce root).errSent = []) := by
  have h := walkNode_spec root
  refine ⟨rfl, ?_, ?_, ?_⟩
  · show (walkNode root).1 = _
    rw [h]
  · intro e he
    show (match (walkNode root).2 with
          | some e' => [e'] | none => ([] : List GoError)) = [e]
    rw [h]
    simpa using congrArg (fun o =>
      match o with | some e' => [e'] | none => ([] : List GoError)) he
  · intro he
    show (match (walkNode root).2 with
          | some e' => [e'] | none => ([] : List GoError)) = []
    rw [h]
    simpa using congrArg (fun o =>
      match o with | some e' => [e'] | none => ([] : List GoError)) he

/-- A concrete tree: a root directory with one zip file, then an entry whose
stat fails, then another zip file that is never discovered. -/
def witTree : FSNode :=
  .dir "/r" (.cons (.file "/r/a.zip")
    (.cons (.bad "/r/b" (.io "permission denied"))
      (.cons (.file "/r/c.zip") .nil)))

theorem c4_witness :
    (produce witTree).closedQueue = true ∧
    (produce witTree).errSent = [.io "permission denied"] ∧
    (produce witTree).enqueued = ["/r/a.zip"] :=
  ⟨(c4_traversal_abort witTree).1,
   (c4_traversal_abort witTree).2.2.1 (.io "permission denied") (by decide),
   by decide⟩

theorem procEntry_dirs_mono (env : ExtractEnv) (dest : String) (st : XState)
    (f : ZipEntry) (x : String) (hx : x ∈ st.fs.dirs) :
    x ∈ ((procEntry env dest st f).1).fs.dirs := by
  by_cases hdir : f.isDir = true
  · cases hmk : env.mkdirErr (outPath dest f) with
    | some e => simp [procEntry, hdir, hmk, hx]
    | none => simp [procEntry, hdir, hmk, mkdirAllFS, hx]
  · simp only [Bool.not_eq_true] at hdir
    cases hmk : env.mkdirErr (dirPath (outPath dest f)) with
    | some e => simp [procEntry, hdir, hmk, hx]
    | none =>
      cases hof : env.openFileErr (outPath dest f) with
      | some e => simp [procEntry, hdir, hmk, hof, mkdirAllFS, hx]
      | none =>
        cases heo : env.entryOpenErr f.name with
        | some e => simp [procEntry, hdir, hmk, hof, heo, mkdirAllFS, writeFile, hx]
        | none =>
          cases hcp : env.copyErr f.name with
          | some e =>
            simp [procEntry, hdir, hmk, hof, heo, hcp, mkdirAllFS, writeFile, hx]
          | none =>
            simp [procEntry, hdir, hmk, hof, heo, hcp, mkdirAllFS, writeFile, hx]

theorem procEntry_openOut_mem (env : ExtractEnv) (dest : String) (st : XState)
    (f : ZipEntry) (p : String) (ds : List String)
    (hm : Ev.openOut p ds ∈ ((procEntry env dest st f).1).events) :
    Ev.openOut p ds ∈ st.events ∨ ∀ x ∈ st.fs.dirs, x ∈ ds := by
  by_cases hdir : f.isDir = true
  · simp [procEntry, hdir] at hm
    exact Or.inl hm
  · simp only [Bool.not_eq_true] at hdir
    cases hmk : env.mkdirErr (dirPath (outPath dest f)) with
    | some e =>
      simp [procEntry, hdir, hmk] at hm
      exact Or.inl hm
    | none =>
      cases hof : env.openFileErr (outPath dest f) with
      | some e =>
        simp [procEntry, hdir, hmk, hof] at hm
        exact Or.inl hm
      | none =>
        cases heo : env.entryOpenErr f.name with
        | some e =>
          simp [procEntry, hdir, hmk, hof, heo, mkdirAllFS] at hm
          rcases hm with hm | ⟨hp, hds⟩
          · exact Or.inl hm
          · subst hds
            exact Or.inr (fun x hx => List.mem_append_right _ hx)
        | none =>
          cases hcp : env.copyErr f.name with
          | some e =>
            simp [procEntry, hdir, hmk, hof, heo, hcp, mkdirAllFS] at hm
            rcases hm with hm | ⟨hp, hds⟩
            · exact Or.inl hm
            · subst hds
              exact Or.inr (fun x hx => List.mem_append_right _ hx)
          | none =>
            simp [procEntry, hdir, hmk, hof, heo, hcp, mkdirAllFS] at hm
            rcases hm with hm | ⟨hp, hds⟩
            · exact Or.inl hm
            · subst hds
              exact Or.inr (fun x hx => List.mem_append_right _ hx)

theorem procEntry_events_append (env : ExtractEnv) (dest : String) (st : XState)
    (f : ZipEntry) :
    ∃ new, ((procEntry env dest st f).1).events = st.events ++ new := by
  by_cases hdir : f.isDir = true
  · exact ⟨[Ev.mkdirAll (outPath dest f) (env.mkdirErr (outPath dest f)).isNone],
      by simp [procEntry, hdir]⟩
  · simp only [Bool.not_eq_true] at hdir
    cases hmk : env.mkdirErr (dirPath (outPath dest f)) with
    | some e =>
      exact ⟨[Ev.mkdirAll (dirPath (outPath dest f)) false],
        by simp [procEntry, hdir, hmk]⟩
    | none =>
      cases hof : env.openFileErr (outPath dest f) with
      | some e =>
        exact ⟨[Ev.mkdirAll (dirPath (outPath dest f)) true],
          by simp [procEntry, hdir, hmk, hof]⟩
      | none =>
        cases heo : env.entryOpenErr f.name with
        | some e =>
          exact ⟨[Ev.mkdirAll (dirPath (outPath dest f)) true,
                  Ev.openOut (outPath dest f)
                    (mkdirAllFS st.fs (dirPath (outPath dest f))).dirs],
            by simp [procEntry, hdir, hmk, hof, heo]⟩
        | none =>
          cases hcp : env.copyErr f.name with
          | some e =>
            exact ⟨[Ev.mkdirAll (dirPath (outPath dest f)) true,
                    Ev.openOut (outPath dest f)
                      (mkdirAllFS st.fs (dirPath (outPath dest f))).dirs,
                    Ev.copied f.name (outPath dest f) false],
              by simp [procEntry, hdir, hmk, hof, heo, hcp]⟩
          | none =>
            exact ⟨[Ev.mkdirAll (dirPath (outPath dest f)) true,
                    Ev.openOut (outPath dest f)
                      (mkdirAllFS st.fs (dirPath (outPath dest f))).dirs,
                    Ev.copied f.name (outPath dest f) true],
              by simp [procEntry, hdir, hmk, hof, heo, hcp]⟩

theorem runEntries_events_append (env : ExtractEnv) (dest : String)
    (entries : List ZipEntry) : ∀ st : XState,
    ∃ new, ((runEntries env dest st entries).1).events = st.events ++ new := by
  induction entries with
  | nil => intro st; exact ⟨[], by simp [runEntries]⟩
  | cons f fs ih =>
    intro st
    obtain ⟨n1, hn1⟩ := procEntry_events_append env dest st f
    rcases h : procEntry env dest st f with ⟨st', e?⟩
    rw [h] at hn1
    have hn1' : st'.events = st.events ++ n1 := hn1
    cases e? with
    | some e =>
      refine ⟨n1, ?_⟩
      rw [runEntries, h]
      exact hn1'
    | none =>
      obtain ⟨n2, hn2⟩ := ih st'
      refine ⟨n1 ++ n2, ?_⟩
      rw [runEntries, h, hn2, hn1', List.append_assoc]

theorem runEntries_openOut_mem (env : ExtractEnv) (dest x : String)
    (entries : List ZipEntry) : ∀ st : XState, x ∈ st.fs.dirs →
    ∀ p ds, Ev.openOut p ds ∈ ((runEntries env dest st entries).1).events →
      Ev.openOut p ds ∈ st.events ∨ x ∈ ds := by
  induction entries with
  | nil =>
    intro st hx p ds hm
    simp [runEntries] at hm
    exact Or.inl hm
  | cons f fs ih =>
    intro st hx p ds hm
    have hmono := procEntry_dirs_mono env dest st f x hx
    have hpe := procEntry_openOut_mem env dest st f p ds
    rcases h : procEntry env dest st f with ⟨st', e?⟩
    rw [h] at hmono hpe
    cases e? with
    | some e =>
      rw [runEntries, h] at hm
      rcases hpe hm with hm1 | hall
      · exact Or.inl hm1
      · exact Or.inr (hall x hx)
    | none =>
      rw [runEntries, h] at hm
      rcases ih st' hmono p ds hm with hm1 | hds
      · rcases hpe hm1 with hm2 | hall
        · exact Or.inl hm2
        · exact Or.inr (hall x hx)
      · exact Or.inr hds

/-- Claim C7 (amended): for a well-formed archive, `extractZip` issues the
`os.MkdirAll(destDir, 0755)` call before processing any entry — it is the
first event of the extraction — and, whenever that call succeeds, the
(cleaned) destination directory exists at the time each entry's output file
is opened: every `openOut` event produced by this extraction carries the
destination in its snapshot of existing directories.  (The success proviso
is necessary: the code discards this call's error, see
`c7_counterexample`.) -/
theorem c7_amended_dest_exists_at_open (env : ExtractEnv) (zp dest : String)
    (st : XState) (files : List ZipEntry)
    (hopen : env.openResult zp = .ok files)
    (hmk : env.mkdirErr dest = none) :
    (∃ tail, ((extractZip env zp dest st).1).events
        = st.events ++ (Ev.mkdirAll dest true :: tail)) ∧
    (∀ p ds, Ev.openOut p ds ∈ ((extractZip env zp dest st).1).events →
        Ev.openOut p ds ∈ st.events ∨ clean dest ∈ ds) := by
  have hok : (env.mkdirErr dest).isNone = true := by rw [hmk]; rfl
  have hred : (extractZip env zp dest st).1 =
      (runEntries env dest
        { st with fs := mkdirAllFS st.fs dest,
                  events := st.events ++ [Ev.mkdirAll dest true] } files).1 := by
    simp [extractZip, hopen, hok]
  constructor
  · obtain ⟨new, hnew⟩ := runEntries_events_append env dest files
      { st with fs := mkdirAllFS st.fs dest,
                events := st.events ++ [Ev.mkdirAll dest true] }
    rw [hred, hnew]
    exact ⟨new, by simp⟩
  · intro p ds hm
    rw [hred] at hm
    have hx : clean dest ∈ (mkdirAllFS st.fs dest).dirs :=
      List.mem_append_left _ (clean_mem_pathPrefixes dest)
    rcases runEntries_openOut_mem env dest (clean dest) files _ hx p ds hm with
      hm1 | hds
    · simp only [List.mem_append, List.mem_singleton] at hm1
      rcases hm1 with hm2 | hm2
      · exact Or.inl hm2
      · exact absurd hm2 (by simp)
    · exact Or.inr hds

def envC7w : ExtractEnv :=
  { envOk with openResult := fun _ => .ok [⟨"a.txt", false, 420⟩] }

theorem c7_witness :
    (∃ tail, ((extractZip envC7w "/d.zip" "/d" initX).1).events
        = initX.events ++ (Ev.mkdirAll "/d" true :: tail)) ∧
    (∀ p ds, Ev.openOut p ds ∈ ((extractZip envC7w "/d.zip" "/d" initX).1).events →
        Ev.openOut p ds ∈ initX.events ∨ clean "/d" ∈ ds) :=
  c7_amended_dest_exists_at_open envC7w "/d.zip" "/d" initX
    [⟨"a.txt", false, 420⟩] rfl rfl

/-- The environment of the C7 counterexample: the archive at `/a/b/x.zip`
opens fine and holds the single entry `"../../c/evil.txt"`; creating the
destination `/a/b/x` fails (e.g. `/a/b` is not writable) — an error the code
ignores — while `/a/c` can be created and the output file can be opened. -/
def envC7cex : ExtractEnv :=
  { envOk with
      openResult := fun _ => .ok [⟨"../../c/evil.txt", false, 420⟩]
      mkdirErr := fun p => if p = "/a/b/x" then some (.io "permission denied")
                           else none
      content := fun _ => "X" }

def stC7cex : XState :=
  { fs := { dirs := ["/a", "/a/b"], files := [] },
    openOut := [], openRead := [], events := [] }

/-- Claim C7 counterexample: the claim as stated — destination exists when
the first entry's output is opened — is false.  In `envC7cex` the archive
opens successfully, the first (and only) entry's output at
`/a/c/evil.txt` IS opened (an `openOut` event exists), yet its snapshot of
existing directories does not contain the destination `/a/b/x` (a cleaned
path), because the initial `os.MkdirAll(destDir, 0755)` failed with its
error discarded (gozip.go line 26) and the entry escapes the destination
via `".."`. -/
theorem c7_counterexample :
    envC7cex.openResult "/a/b/x.zip"
        = OpenResult.ok [⟨"../../c/evil.txt", false, 420⟩] ∧
    Ev.openOut "/a/c/evil.txt" ["/a", "/a/c", "/a/c", "/a", "/a/b"]
        ∈ ((extractZip envC7cex "/a/b/x.zip" "/a/b/x" stC7cex).1).events ∧
    (∀ p ds, Ev.openOut p ds
        ∈ ((extractZip envC7cex "/a/b/x.zip" "/a/b/x" stC7cex).1).events →
          p = "/a/c/evil.txt" ∧ ds = ["/a", "/a/c", "/a/c", "/a", "/a/b"]) ∧
    clean "/a/b/x" = "/a/b/x" ∧
    "/a/b/x" ∉ ["/a", "/a/c", "/a/c", "/a", "/a/b"] := by
  refine ⟨rfl, by decide, ?_, by decide, by decide⟩
  intro p ds hm
  have hev : ((extractZip envC7cex "/a/b/x.zip" "/a/b/x" stC7cex).1).events
      = [Ev.mkdirAll "/a/b/x" false, Ev.mkdirAll "/a/c" true,
         Ev.openOut "/a/c/evil.txt" ["/a", "/a/c", "/a/c", "/a", "/a/b"],
         Ev.copied "../../c/evil.txt" "/a/c/evil.txt" true] := by decide
  rw [hev] at hm
  simp only [List.mem_cons, List.not_mem_nil, or_false] at hm
  rcases hm with hm | hm | hm | hm
  · exact absurd hm (by simp)
  · exact absurd hm (by simp)
  · injection hm with h1 h2
    exact ⟨h1, h2⟩
  · exact absurd hm (by simp)

/-! ## C8: liveness of the producer's sends -/

theorem sysStep_pending_le {n : Nat} {s t : Sys n} (h : SysStep s t) :
    t.pending.length ≤ s.pending.length := by
  rcases h with h | ⟨i, h⟩
  · cases h with
    | send p rest hp hlt ht =>
      rw [ht, hp]
      simp
    | close hp hc ht => rw [ht]
  · cases h with
    | recv p qs h1 h2 ht => rw [ht]
    | procOk h1 ht => rw [ht]
    | procFatal h1 ht => rw [ht]
    | drain h1 h2 h3 ht => rw [ht]

theorem run_pending_mono {n : Nat} {tr : Nat → Sys n} (htr : IsRun tr)
    {j k : Nat} (hjk : j ≤ k) :
    (tr k).pending.length ≤ (tr j).pending.length := by
  induction k, hjk using Nat.le_induction with
  | base => exact le_refl _
  | succ k hk ih =>
    rcases htr k with he | hs
    · rw [he]; exact ih
    · exact le_trans (sysStep_pending_le hs) ih

/-- Claim C8: in the transition-system model of `main` (producer goroutine,
`n` workers, `pathsChan` of capacity `n`), with weak fairness of the
producer and of some worker `w` that is never killed by a fatal extraction
error (the sense in which "consumers are running"), the producer never
blocks indefinitely: from any point where it still has a path to send, it
eventually completes that send (its list of pending sends strictly
shrinks). -/
theorem c8_producer_send_completes {n : Nat} (tr : Nat → Sys n) (w : Fin n)
    (htr : IsRun tr) (hinit : SysInit (tr 0))
    (hfp : FairP tr) (hfw : FairW w tr)
    (hw : ∀ j, (tr j).workers w ≠ WState.doneFatal)
    (i : Nat) (hpend : (tr i).pending ≠ []) :
    ∃ k, i ≤ k ∧ (tr k).pending.length < (tr i).pending.length := by
  by_contra hcon
  push_neg at hcon
  have hlen : ∀ k, i ≤ k → (tr k).pending.length = (tr i).pending.length :=
    fun k hk => le_antisymm (run_pending_mono htr hk) (hcon k hk)
  have hpc : ∀ k, i ≤ k → (tr k).pending = (tr i).pending := by
    intro k hk
    induction k, hk using Nat.le_induction with
    | base => rfl
    | succ k hk ih =>
      rcases htr k with he | hs
      · rw [he]; exact ih
      · rcases hs with hp | ⟨i', hwst⟩
        · cases hp with
          | send p rest hp2 hlt ht =>
            exfalso
            have h1 := hlen k hk
            have h2 := hlen (k + 1) (Nat.le_succ_of_le hk)
            rw [ht] at h2
            rw [hp2] at h1
            simp at h1 h2
            omega
          | close hp2 hc ht => rw [ht]; exact ih
        · cases hwst with
          | recv p qs h1 h2 ht => rw [ht]; exact ih
          | procOk h1 ht => rw [ht]; exact ih
          | procFatal h1 ht => rw [ht]; exact ih
          | drain h1 h2 h3 ht => rw [ht]; exact ih
  have hpne : ∀ k, i ≤ k → (tr k).pending ≠ [] := by
    intro k hk
    rw [hpc k hk]; exact hpend
  have hclosedinv : ∀ j, (tr j).closed = true → (tr j).pending = [] := by
    intro j
    induction j with
    | zero =>
      intro hc
      exact absurd hc (by rw [hinit.1]; simp)
    | succ j ih =>
      intro hc
      rcases htr j with he | hs
      · rw [he] at hc ⊢; exact ih hc
      · rcases hs with hp | ⟨i', hwst⟩
        · cases hp with
          | send p rest hp2 hlt ht =>
            rw [ht] at hc
            have hcj : (tr j).closed = true := hc
            have hnil := ih hcj
            rw [hp2] at hnil
            exact absurd hnil (by simp)
          | close hp2 hc2 ht => rw [ht]; exact hp2
        · cases hwst with
          | recv p qs h1 h2 ht => rw [ht] at hc ⊢; exact ih hc
          | procOk h1 ht => rw [ht] at hc ⊢; exact ih hc
          | procFatal h1 ht => rw [ht] at hc ⊢; exact ih hc
          | drain h1 h2 h3 ht => rw [ht] at hc ⊢; exact ih hc
  have hclosedF : ∀ k, i ≤ k → (tr k).closed = false := by
    intro k hk
    cases hcl : (tr k).closed
    · rfl
    · exact absurd (hclosedinv k hcl) (hpne k hk)
  have hqle : ∀ j, (tr j).queue.length ≤ n := by
    intro j
    induction j with
    | zero => rw [hinit.2.1]; simp
    | succ j ih =>
      rcases htr j with he | hs
      · rw [he]; exact ih
      · rcases hs with hp | ⟨i', hwst⟩
        · cases hp with
          | send p rest hp2 hlt ht =>
            rw [ht]
            simp
            omega
          | close hp2 hc ht => rw [ht]; exact ih
        · cases hwst with
          | recv p qs h1 h2 ht =>
            rw [ht]
            have hql := ih
            rw [h2] at hql
            simp at hql ⊢
            omega
          | procOk h1 ht => rw [ht]; exact ih
          | procFatal h1 ht => rw [ht]; exact ih
          | drain h1 h2 h3 ht => rw [ht]; exact ih
  have hdrainv : ∀ j, (tr j).workers w = WState.doneDrain → (tr j).closed = true := by
    intro j
    induction j with
    | zero =>
      intro hd
      exact absurd hd (by rw [hinit.2.2 w]; simp)
    | succ j ih =>
      intro hd
      rcases htr j with he | hs
      · rw [he] at hd ⊢; exact ih hd
      · rcases hs with hp | ⟨i', hwst⟩
        · cases hp with
          | send p rest hp2 hlt ht => rw [ht] at hd ⊢; exact ih hd
          | close hp2 hc ht => rw [ht]
        · cases hwst with
          | recv p qs h1 h2 ht =>
            rw [ht] at hd ⊢
            have hd' : Function.update (tr j).workers i' WState.processing w
                = WState.doneDrain := hd
            by_cases hiw : i' = w
            · rw [hiw, Function.update_same] at hd'
              exact absurd hd' (by simp)
            · rw [Function.update_noteq (Ne.symm hiw)] at hd'
              exact ih hd'
          | procOk h1 ht =>
            rw [ht] at hd ⊢
            have hd' : Function.update (tr j).workers i' WState.idle w
                = WState.doneDrain := hd
            by_cases hiw : i' = w
            · rw [hiw, Function.update_same] at hd'
              exact absurd hd' (by simp)
            · rw [Function.update_noteq (Ne.symm hiw)] at hd'
              exact ih hd'
          | procFatal h1 ht =>
            rw [ht] at hd ⊢
            have hd' : Function.update (tr j).workers i' WState.doneFatal w
                = WState.doneDrain := hd
            by_cases hiw : i' = w
            · rw [hiw, Function.update_same] at hd'
              exact absurd hd' (by simp)
            · rw [Function.update_noteq (Ne.symm hiw)] at hd'
              exact ih hd'
          | drain h1 h2 h3 ht =>
            rw [ht]
            exact h3
  have hnop : ∀ k, i ≤ k → ¬ PStep (tr k) (tr (k + 1)) := by
    intro k hk hstep
    cases hstep with
    | send p rest hp2 hlt ht =>
      have h1 := hlen k hk
      have h2 := hlen (k + 1) (Nat.le_succ_of_le hk)
      rw [ht] at h2
      rw [hp2] at h1
      simp at h1 h2
      omega
    | close hp2 hc ht =>
      have hcf := hclosedF (k + 1) (Nat.le_succ_of_le hk)
      rw [ht] at hcf
      simp at hcf
  have hwip : ∀ k, i ≤ k →
      (tr k).workers w = WState.idle ∨ (tr k).workers w = WState.processing := by
    intro k hk
    cases hww : (tr k).workers w with
    | idle => exact Or.inl rfl
    | processing => exact Or.inr rfl
    | doneDrain =>
      exact absurd (hdrainv k hww) (by rw [hclosedF k hk]; simp)
    | doneFatal => exact absurd hww (hw k)
  by_cases hq : ∃ j, i ≤ j ∧ (tr j).queue.length < n
  · obtain ⟨j, hij, hjlt⟩ := hq
    have hqlt : ∀ l, j ≤ l → (tr l).queue.length < n := by
      intro l hl
      induction l, hl using Nat.le_induction with
      | base => exact hjlt
      | succ l hl ih =>
        rcases htr l with he | hs
        · rw [he]; exact ih
        · rcases hs with hp | ⟨i', hwst⟩
          · exact absurd hp (hnop l (le_trans hij hl))
          · cases hwst with
            | recv p qs h1 h2 ht =>
              have hql := ih
              rw [h2] at hql
              rw [ht]
              simp at hql ⊢
              omega
            | procOk h1 ht => rw [ht]; exact ih
            | procFatal h1 ht => rw [ht]; exact ih
            | drain h1 h2 h3 ht => rw [ht]; exact ih
    have hpen : ∀ l, j ≤ l → PEnabled (tr l) := by
      intro l hl
      obtain ⟨p, rest, hpr⟩ := List.exists_cons_of_ne_nil (hpne l (le_trans hij hl))
      exact ⟨_, PStep.send _ _ p rest hpr (hqlt l hl) rfl⟩
    obtain ⟨k, hjk, hstep⟩ := hfp j hpen
    exact hnop k (le_trans hij hjk) hstep
  · push_neg at hq
    have hn : 0 < n := w.pos
    have hqne : ∀ j, i ≤ j → (tr j).queue ≠ [] := by
      intro j hj hnil
      have hge := hq j hj
      rw [hnil] at hge
      simp at hge
      omega
    have hnorecv : ∀ l, i ≤ l → ∀ p qs,
        (tr l).queue = p :: qs → (tr (l + 1)).queue = qs → False := by
      intro l hl p qs hlq htq
      have h1 := hq (l + 1) (Nat.le_succ_of_le hl)
      rw [htq] at h1
      have h2 := hqle l
      rw [hlq] at h2
      simp at h2
      omega
    have hwen : ∀ l, i ≤ l → WEnabled w (tr l) := by
      intro l hl
      rcases hwip l hl with hst | hst
      · obtain ⟨p, qs, hpq⟩ := List.exists_cons_of_ne_nil (hqne l hl)
        exact ⟨_, WStep.recv _ _ p qs hst hpq rfl⟩
      · exact ⟨_, WStep.procOk _ _ hst rfl⟩
    obtain ⟨k1, hik1, hstep1⟩ := hfw i hwen
    cases hstep1 with
    | recv p qs h1 h2 ht => exact hnorecv k1 hik1 p qs h2 (by rw [ht])
    | drain h1 h2 h3 ht =>
      rw [hclosedF k1 hik1] at h3
      exact Bool.noConfusion h3
    | procFatal h1 ht =>
      have hnf := hw (k1 + 1)
      rw [ht] at hnf
      exact hnf (Function.update_same w WState.doneFatal ((tr k1).workers))
    | procOk h1 ht =>
      have hidle1 : (tr (k1 + 1)).workers w = WState.idle := by
        rw [ht]
        exact Function.update_same w WState.idle ((tr k1).workers)
      have hidle : ∀ l, k1 + 1 ≤ l → (tr l).workers w = WState.idle := by
        intro l hl
        induction l, hl using Nat.le_induction with
        | base => exact hidle1
        | succ l hl ih =>
          have hil : i ≤ l := le_trans hik1 (le_trans (Nat.le_succ k1) hl)
          rcases htr l with he | hs
          · rw [he]; exact ih
          · rcases hs with hp | ⟨i', hwst⟩
            · exact absurd hp (hnop l hil)
            · cases hwst with
              | recv p2 qs2 g1 g2 gt =>
                exact (hnorecv l hil p2 qs2 g2 (by rw [gt])).elim
              | procOk g1 gt =>
                by_cases hiw : i' = w
                · rw [hiw, ih] at g1
                  exact WState.noConfusion g1
                · rw [gt]
                  have hupd : Function.update (tr l).workers i' WState.idle w
                      = WState.idle := by
                    rw [Function.update_noteq (Ne.symm hiw)]
                    exact ih
                  exact hupd
              | procFatal g1 gt =>
                by_cases hiw : i' = w
                · rw [hiw, ih] at g1
                  exact WState.noConfusion g1
                · rw [gt]
                  have hupd : Function.update (tr l).workers i' WState.doneFatal w
                      = WState.idle := by
                    rw [Function.update_noteq (Ne.symm hiw)]
                    exact ih
                  exact hupd
              | drain g1 g2 g3 gt =>
                rw [hclosedF l hil] at g3
                exact Bool.noConfusion g3
      have hwen2 : ∀ l, k1 + 1 ≤ l → WEnabled w (tr l) := by
        intro l hl
        have hil : i ≤ l := le_trans hik1 (le_trans (Nat.le_succ k1) hl)
        obtain ⟨p2, qs2, hpq⟩ := List.exists_cons_of_ne_nil (hqne l hil)
        exact ⟨_, WStep.recv _ _ p2 qs2 (hidle l hl) hpq rfl⟩
      obtain ⟨k2, hk2, hstep2⟩ := hfw (k1 + 1) hwen2
      have hik2 : i ≤ k2 := le_trans hik1 (le_trans (Nat.le_succ k1) hk2)
      cases hstep2 with
      | recv p2 qs2 g1 g2 gt => exact hnorecv k2 hik2 p2 qs2 g2 (by rw [gt])
      | drain g1 g2 g3 gt =>
        rw [hclosedF k2 hik2] at g3
        exact Bool.noConfusion g3
      | procOk g1 gt =>
        rw [hidle k2 hk2] at g1
        exact WState.noConfusion g1
      | procFatal g1 gt =>
        rw [hidle k2 hk2] at g1
        exact WState.noConfusion g1

/-! A concrete fair run for the C8 witness: one worker, one task; the
producer sends, closes the channel, the worker receives, processes and
drains, and the system stutters forever after. -/

def w0 : Fin 1 := ⟨0, Nat.zero_lt_one⟩

def wit8S0 : Sys 1 :=
  { pending := ["a.zip"], closed := false, queue := [], workers := fun _ => .idle }

def wit8S1 : Sys 1 :=
  { wit8S0 with pending := [], queue := wit8S0.queue ++ ["a.zip"] }

def wit8S2 : Sys 1 := { wit8S1 with closed := true }

def wit8S3 : Sys 1 :=
  { wit8S2 with queue := [],
                workers := Function.update wit8S2.workers w0 WState.processing }

def wit8S4 : Sys 1 :=
  { wit8S3 with workers := Function.update wit8S3.workers w0 WState.idle }

def wit8S5 : Sys 1 :=
  { wit8S4 with workers := Function.update wit8S4.workers w0 WState.doneDrain }

def wit8Trace : Nat → Sys 1
  | 0 => wit8S0
  | 1 => wit8S1
  | 2 => wit8S2
  | 3 => wit8S3
  | 4 => wit8S4
  | _ + 5 => wit8S5

theorem wit8_isRun : IsRun wit8Trace := by
  intro j
  match j with
  | 0 => exact Or.inr (Or.inl (PStep.send _ _ "a.zip" [] rfl (by decide) rfl))
  | 1 => exact Or.inr (Or.inl (PStep.close _ _ rfl rfl rfl))
  | 2 => exact Or.inr (Or.inr ⟨w0, WStep.recv _ _ "a.zip" [] rfl rfl rfl⟩)
  | 3 => exact Or.inr (Or.inr ⟨w0, WStep.procOk _ _ rfl rfl⟩)
  | 4 => exact Or.inr (Or.inr ⟨w0, WStep.drain _ _ rfl rfl rfl rfl⟩)
  | k + 5 => exact Or.inl rfl

theorem wit8_init : SysInit (wit8Trace 0) :=
  ⟨rfl, rfl, fun _ => rfl⟩

theorem wit8_final_noPStep : ¬ PEnabled (wit8S5 : Sys 1) := by
  rintro ⟨t, h⟩
  cases h with
  | send p rest hp hlt ht => exact List.noConfusion hp
  | close hp hc ht => exact Bool.noConfusion hc

theorem wit8_final_noWStep : ¬ WEnabled w0 (wit8S5 : Sys 1) := by
  rintro ⟨t, h⟩
  cases h with
  | recv p qs h1 h2 ht => exact WState.noConfusion h1
  | procOk h1 ht => exact WState.noConfusion h1
  | procFatal h1 ht => exact WState.noConfusion h1
  | drain h1 h2 h3 ht => exact WState.noConfusion h1

theorem wit8_fairP : FairP wit8Trace := by
  intro i hall
  exact absurd (hall (i + 5) (by omega)) wit8_final_noPStep

theorem wit8_fairW : FairW w0 wit8Trace := by
  intro i hall
  exact absurd (hall (i + 5) (by omega)) wit8_final_noWStep

theorem wit8_noFatal : ∀ j, (wit8Trace j).workers w0 ≠ WState.doneFatal := by
  intro j
  match j with
  | 0 => decide
  | 1 => decide
  | 2 => decide
  | 3 => decide
  | 4 => decide
  | k + 5 =>
    show (wit8S5 : Sys 1).workers w0 ≠ WState.doneFatal
    decide

theorem c8_witness :
    ∃ k, 0 ≤ k ∧
      (wit8Trace k).pending.length < (wit8Trace 0).pending.length :=
  c8_producer_send_completes wit8Trace w0 wit8_isRun wit8_init wit8_fairP
    wit8_fairW wit8_noFatal 0 (by decide)

end Gozip
